import Mathlib

/-!
Shallow embedding of the QuickQanava `qan::Graph` implementation
(`src/src/qanGraph.cpp`): the topology store, the selection manager, the
stacking manager, the alignment utility and the traversal engine, together
with theorems about the behaviour that implementation exhibits.

Modelling conventions: entity identities are natural numbers, `qreal`
values are rationals (all the constants involved, including
`std::numeric_limits<double>::min()` and `max()`, are exactly
representable), null pointers are `Option.none`, and code of the
repository that is not part of `qanGraph.cpp` (the `gtpo` topology layer,
`qan::Selectable`) is modelled from the specification where noted.
-/

namespace Qan

/-- Selection policy of `qan::Graph` (`SelectionPolicy` enum). -/
inductive SelectionPolicy where
  | NoSelection
  | SelectOnClick
  | SelectOnCtrlClick
deriving DecidableEq, Repr

/-- A selectable primitive (a `qan::Node` or a `qan::Group`): its identity,
whether it is a group, and whether it has a visual item
(`getItem() != nullptr`). -/
structure Prim where
  pid : Nat
  isGroupPrim : Bool
  hasItem : Bool
deriving DecidableEq, Repr

/-- Selection-relevant state of a `qan::Graph`: the owned primitives and the
two selection containers `_selectedNodes` / `_selectedGroups`
(insertion-ordered vectors of entity identities). -/
structure SelGraph where
  policy : SelectionPolicy
  nodes : List Prim
  selectedNodes : List Nat
  selectedGroups : List Nat
deriving DecidableEq, Repr

/-- The selection container used by a `Primitive_t` template instantiation:
`qan::Node` instantiations operate on `_selectedNodes`, `qan::Group`
instantiations on `_selectedGroups`. -/
def selSet (g : SelGraph) (asGroup : Bool) : List Nat :=
  if asGroup then g.selectedGroups else g.selectedNodes

/-- Write back the selection container of the given instantiation. -/
def writeSelSet (g : SelGraph) (asGroup : Bool) (s : List Nat) : SelGraph :=
  if asGroup then { g with selectedGroups := s } else { g with selectedNodes := s }

/-- `addToSelectionImpl` (qanGraph.cpp:1180): append the primitive to the
selection container when it is not already contained (then configure the
visual selection decoration and set the item selected flag). -/
def addToSelection (g : SelGraph) (p : Prim) (asGroup : Bool) : SelGraph :=
  if p.pid ∈ selSet g asGroup then g
  else writeSelSet g asGroup (selSet g asGroup ++ [p.pid])

/-- `removeFromSelectionImpl` (qanGraph.cpp:1200): `removeAll` of the
primitive from the selection container when contained. -/
def removeFromSelection (g : SelGraph) (p : Prim) (asGroup : Bool) : SelGraph :=
  writeSelSet g asGroup ((selSet g asGroup).filter (fun x => x ≠ p.pid))

/-- `Graph::clearSelection` (qanGraph.cpp:1238): iterate a snapshot copy of
each selection container calling `setSelected(false)` on every item, then
clear both containers; the net effect on the selection state is that both
containers are emptied. -/
def clearSelection (g : SelGraph) : SelGraph :=
  { g with selectedNodes := [], selectedGroups := [] }

/-- `qan::impl::selectPrimitive` (qanGraph.cpp:1110). The item flag
`getItem()->getSelected()` is modelled as membership in the selection
container of the instantiation, consistent with the source note that
`qan::Selectable::setSelected(false)` calls `graph.removeFromSelection()`
(qanGraph.cpp:1126) while `addToSelectionImpl` is the only place the flag
is raised. -/
def selectPrimitive (g : SelGraph) (p : Prim) (ctrlPressed : Bool) (asGroup : Bool) :
    Bool × SelGraph :=
  if g.policy = SelectionPolicy.NoSelection then (false, g)
  else if ¬ p.hasItem then (false, g)
  else if p.pid ∈ selSet g asGroup then
    (false, if ctrlPressed then removeFromSelection g p asGroup else g)
  else
    match g.policy with
    | SelectionPolicy.SelectOnClick =>
        (true, addToSelection (if ctrlPressed then g else clearSelection g) p asGroup)
    | SelectionPolicy.SelectOnCtrlClick =>
        if ctrlPressed then (true, addToSelection g p asGroup) else (false, g)
    | SelectionPolicy.NoSelection => (false, g)

/-- `qan::impl::setPrimitiveSelected` (qanGraph.cpp:1149): no-op for a
primitive without a visual item; otherwise `setSelected(selected)` on the
item (removing from the selection container when `selected` is false) and,
when `selected` is true, `addToSelection`. -/
def setPrimitiveSelected (g : SelGraph) (p : Prim) (selected : Bool) (asGroup : Bool) :
    SelGraph :=
  if ¬ p.hasItem then g
  else
    let g1 := if selected then g else removeFromSelection g p asGroup
    if selected then addToSelection g1 p asGroup else g1

/-- `Graph::removeNode` (qanGraph.cpp:656): a null node is a no-op; otherwise
the node is removed from `_selectedNodes` (only — `_selectedGroups` is not
touched), then removed from the topology store (`gtpo::remove_node`, which
severs incident edges and destroys the node). -/
def removeNode (g : SelGraph) (node : Option Prim) : SelGraph :=
  match node with
  | none => g
  | some p =>
      { g with selectedNodes := g.selectedNodes.filter (fun x => x ≠ p.pid),
               nodes := g.nodes.filter (fun q => q.pid ≠ p.pid) }

/-- `Graph::removeGroup` (qanGraph.cpp:959): a null group is a no-op;
otherwise member node items are visually reparented out of the group, the
group is removed from `_selectedNodes` (only — `_selectedGroups` is not
touched), then the group is removed from the topology store. -/
def removeGroup (g : SelGraph) (group : Option Prim) : SelGraph :=
  match group with
  | none => g
  | some p =>
      { g with selectedNodes := g.selectedNodes.filter (fun x => x ≠ p.pid),
               nodes := g.nodes.filter (fun q => q.pid ≠ p.pid) }

/-- C3: `trySelect` (`selectNode`/`selectGroup`, i.e. `selectPrimitive`) is,
for every entity that has a visual item and every modifier state, the
selection state machine: a no-op returning false under `NoSelection`; if
the entity is already selected and the control modifier is held it
deselects it and returns false (without the modifier it changes nothing
and returns false); if the entity is unselected then under `SelectOnClick`
it selects it, first clearing all other selections when the modifier is
absent, and under `SelectOnCtrlClick` it selects it exactly when the
modifier is held; it returns true if and only if the entity ends up newly
selected. -/
theorem selectPrimitive_spec (g : SelGraph) (p : Prim) (c a : Bool)
    (hItem : p.hasItem = true) :
    (g.policy = SelectionPolicy.NoSelection → selectPrimitive g p c a = (false, g)) ∧
    (g.policy ≠ SelectionPolicy.NoSelection → p.pid ∈ selSet g a →
       (selectPrimitive g p c a).1 = false ∧
       (c = true → p.pid ∉ selSet (selectPrimitive g p c a).2 a) ∧
       (c = false → (selectPrimitive g p c a).2 = g)) ∧
    (g.policy = SelectionPolicy.SelectOnClick → p.pid ∉ selSet g a →
       (selectPrimitive g p c a).1 = true ∧
       (c = false → selSet (selectPrimitive g p c a).2 a = [p.pid] ∧
                    selSet (selectPrimitive g p c a).2 (!a) = []) ∧
       (c = true → selSet (selectPrimitive g p c a).2 a = selSet g a ++ [p.pid] ∧
                   selSet (selectPrimitive g p c a).2 (!a) = selSet g (!a))) ∧
    (g.policy = SelectionPolicy.SelectOnCtrlClick → p.pid ∉ selSet g a →
       (c = true → (selectPrimitive g p c a).1 = true ∧
                   selSet (selectPrimitive g p c a).2 a = selSet g a ++ [p.pid]) ∧
       (c = false → selectPrimitive g p c a = (false, g))) ∧
    ((selectPrimitive g p c a).1 = true ↔
       (p.pid ∉ selSet g a ∧ p.pid ∈ selSet (selectPrimitive g p c a).2 a)) := by
  rcases g with ⟨pol, ns, sn, sg⟩
  cases pol <;> cases c <;> cases a <;>
    by_cases hmem : p.pid ∈ sg <;>
    by_cases hmem' : p.pid ∈ sn <;>
    simp_all [selectPrimitive, selSet, addToSelection, removeFromSelection,
      writeSelSet, clearSelection, List.mem_filter]

/-- C3 witness: with `SelectOnClick` and no modifier, clicking the
unselected visual node 1 in a graph where node 2 is selected selects 1
exclusively and returns true. -/
theorem selectPrimitive_spec_witness :
    (selectPrimitive ⟨SelectionPolicy.SelectOnClick, [⟨1, false, true⟩], [2], []⟩
      ⟨1, false, true⟩ false false).1 = true ∧
    selSet (selectPrimitive ⟨SelectionPolicy.SelectOnClick, [⟨1, false, true⟩], [2], []⟩
      ⟨1, false, true⟩ false false).2 false = [1] := by
  have h := selectPrimitive_spec ⟨SelectionPolicy.SelectOnClick, [⟨1, false, true⟩], [2], []⟩
    ⟨1, false, true⟩ false false rfl
  exact ⟨(h.2.2.1 rfl (by decide)).1, ((h.2.2.1 rfl (by decide)).2.1 rfl).1⟩

/-- C10: for a primitive whose visual item is null, `selectPrimitive`
(`selectNode`) returns false and `setPrimitiveSelected` (`setNodeSelected`)
is a no-op, under every selection policy, modifier state and instantiation,
and neither operation modifies the graph (in particular, neither selection
container). -/
theorem nullItem_select_noop (g : SelGraph) (p : Prim) (c a sel : Bool)
    (hItem : p.hasItem = false) :
    selectPrimitive g p c a = (false, g) ∧ setPrimitiveSelected g p sel a = g := by
  constructor
  · unfold selectPrimitive
    by_cases hp : g.policy = SelectionPolicy.NoSelection <;> simp [hp, hItem]
  · unfold setPrimitiveSelected
    simp [hItem]

/-- C10 witness: a concrete non-visual node under `SelectOnClick`. -/
theorem nullItem_select_noop_witness :
    selectPrimitive ⟨SelectionPolicy.SelectOnClick, [⟨1, false, false⟩], [], []⟩
        ⟨1, false, false⟩ true false
      = (false, ⟨SelectionPolicy.SelectOnClick, [⟨1, false, false⟩], [], []⟩) ∧
    setPrimitiveSelected ⟨SelectionPolicy.SelectOnClick, [⟨1, false, false⟩], [], []⟩
        ⟨1, false, false⟩ true false
      = ⟨SelectionPolicy.SelectOnClick, [⟨1, false, false⟩], [], []⟩ :=
  nullItem_select_noop _ _ true false true rfl

/-- C1 (code bug): a group selected through `selectGroup` lands in
`_selectedGroups`, but `Graph::removeGroup` only removes the removed group
from `_selectedNodes`; after `removeGroup` returns, the destroyed group is
still observable in the selected-groups container. Concretely: select group
1 under `SelectOnClick` (no modifier), then remove it — the store no longer
owns it, yet `_selectedGroups` is still `[1]`. -/
theorem removeGroup_leaves_dangling_selection :
    (removeGroup
        (selectPrimitive ⟨SelectionPolicy.SelectOnClick, [⟨1, true, true⟩], [], []⟩
          ⟨1, true, true⟩ false true).2
        (some ⟨1, true, true⟩)).selectedGroups = [1] ∧
    (removeGroup
        (selectPrimitive ⟨SelectionPolicy.SelectOnClick, [⟨1, true, true⟩], [], []⟩
          ⟨1, true, true⟩ false true).2
        (some ⟨1, true, true⟩)).nodes = [] := by
  decide

/-- Visual bounds of a `QQuickItem` as used by the alignment utility. -/
structure AItem where
  x : ℚ
  width : ℚ
  y : ℚ
  height : ℚ
deriving DecidableEq, Repr

/-- Exact value of `std::numeric_limits<double>::min()`: the smallest
positive normal double, `2 ^ (-1022)`. -/
def dblMin : ℚ := 1 / 2 ^ 1022

/-- Exact value of `std::numeric_limits<double>::max()`:
`(2 - 2 ^ (-52)) * 2 ^ 1023`. -/
def dblMax : ℚ := 2 ^ 1024 - 2 ^ 971

/-- `Graph::alignRight` (qanGraph.cpp:1315): no-op for fewer than two items;
otherwise fold the maximum of `x + width` over the items starting from
`std::numeric_limits<qreal>::min()` and set every `x` to that maximum minus
the item's width. -/
def alignRight (items : List AItem) : List AItem :=
  if items.length ≤ 1 then items
  else
    let maxRight := items.foldl (fun m it => max m (it.x + it.width)) dblMin
    items.map (fun it => { it with x := maxRight - it.width })

/-- `Graph::alignLeft` (qanGraph.cpp:1326): no-op for fewer than two items;
otherwise fold the minimum of `x` over the items starting from
`std::numeric_limits<qreal>::max()` and set every `x` to it. -/
def alignLeft (items : List AItem) : List AItem :=
  if items.length ≤ 1 then items
  else
    let minLeft := items.foldl (fun m it => min m it.x) dblMax
    items.map (fun it => { it with x := minLeft })

/-- C7 (code bug): `alignRight` initialises its max-right fold with
`std::numeric_limits<qreal>::min()` — the smallest positive double, not the
lowest double — so whenever every right edge is negative the computed
"maximum right edge" is `2 ^ (-1022)` instead of the true maximum. On the
items `(x = -20, width = 10)` and `(x = -30, width = 5)` (right edges -10
and -25) the resulting right edges are `2 ^ (-1022)`, not the maximum right
edge -10 the claim requires. On nonnegative coordinates the claimed
behaviour does hold, as in the specification's own scenarios (`alignLeft`
on x-positions {10, 30, 5} sets all three to 5; `alignRight` on
{(0,10),(5,20)} yields x = {15, 5}). -/
theorem alignRight_negative_init_bug :
    ((alignRight [⟨-20, 10, 0, 0⟩, ⟨-30, 5, 0, 0⟩]).map (fun it => it.x + it.width)
        = [dblMin, dblMin]) ∧
    dblMin ≠ max (-20 + 10) (-30 + 5) ∧
    ((alignLeft [⟨10, 1, 0, 0⟩, ⟨30, 1, 0, 0⟩, ⟨5, 1, 0, 0⟩]).map AItem.x = [5, 5, 5]) ∧
    ((alignRight [⟨0, 10, 0, 0⟩, ⟨5, 20, 0, 0⟩]).map AItem.x = [15, 5]) := by
  refine ⟨?_, ?_, ?_, ?_⟩ <;>
    norm_num [alignRight, alignLeft, dblMin, dblMax, List.foldl]

/-- A visual item of the stacking manager: a `qan::NodeItem` (every
`qan::GroupItem` is also a node item), its visual parent (`parentItem()`,
with `none` denoting the graph container item), and — for group items —
the item of the group containing its group
(`getGroup()->getGroup()->getGroupItem()`), `none` when its group is not
nested. -/
structure ZItem where
  sid : Nat
  isGroupItem : Bool
  parent : Option Nat
  groupParent : Option Nat
deriving DecidableEq, Repr

/-- Stacking state: the visual items of the scene, the graph's `_maxZ`
high-water mark, and the current z value of every item. -/
structure ZState where
  items : List ZItem
  maxZ : ℚ
  zOf : Nat → ℚ

/-- `QQuickItem::setZ` on the item with the given identity. -/
def setZ (s : ZState) (i : Nat) (v : ℚ) : ZState :=
  { s with zOf := fun j => if j = i then v else s.zOf j }

/-- `Graph::nextMaxZ` (qanGraph.cpp:1608): increment `_maxZ` and return it. -/
def nextMaxZ (s : ZState) : ℚ × ZState :=
  (s.maxZ + 1, { s with maxZ := s.maxZ + 1 })

/-- `Graph::updateMaxZ` (qanGraph.cpp:1615): raise `_maxZ` to `z` when `z`
exceeds it. -/
def updateMaxZ (s : ZState) (z : ℚ) : ZState :=
  if z > s.maxZ then { s with maxZ := z } else s

/-- The `childItems()` of a container (`none` = the graph container item). -/
def childrenOf (s : ZState) (c : Option Nat) : List ZItem :=
  s.items.filter (fun it => it.parent = c)

/-- `Graph::maxChildsZ` (qanGraph.cpp:1621): 0 for a container without
children, otherwise the fold of `max` over the children's current z values
started from `std::numeric_limits<qreal>::min()`. -/
def maxChildsZ (s : ZState) (c : Option Nat) : ℚ :=
  if (childrenOf s c).isEmpty then 0
  else (childrenOf s c).foldl (fun m it => max m (s.zOf it.sid)) dblMin

/-- Resolve an item identity in the scene. -/
def itemOf (s : ZState) (i : Nat) : Option ZItem :=
  s.items.find? (fun it => it.sid = i)

/-- `collectGroups_rec` inside `Graph::sendToFront` (qanGraph.cpp:1538): the
chain of group items from the given item outward through
`getGroup()->getGroup()` links, innermost first. Nesting in the scene is
finite and acyclic, so fuel `s.items.length` covers every chain. -/
def collectGroupsAux (s : ZState) : Nat → ZItem → List ZItem
  | 0, it => [it]
  | fuel + 1, it =>
      it :: (match it.groupParent.bind (itemOf s) with
             | none => []
             | some pit => collectGroupsAux s fuel pit)

/-- The containing-group chain of an item, innermost to outermost. -/
def collectGroups (s : ZState) (it : ZItem) : List ZItem :=
  collectGroupsAux s s.items.length it

/-- One step of the containing-group walk of `sendToFront`
(qanGraph.cpp:1578): a chain group parented at the graph container item
receives `nextMaxZ()`; a chain group parented inside another item receives
(maximum z among its parent's current children) + 1, with `_maxZ` advanced
when that value exceeds it. -/
def frontChainStep (s : ZState) (gIt : ZItem) : ZState :=
  match gIt.parent with
  | none =>
      let zs := nextMaxZ s
      setZ zs.2 gIt.sid zs.1
  | some _ =>
      let m := maxChildsZ s gIt.parent
      let s1 := updateMaxZ s (m + 1)
      setZ s1 gIt.sid (m + 1)

/-- `Graph::sendToFront` (qanGraph.cpp:1521): a null item is a no-op; a
non-group node item is assigned `nextMaxZ()`; a group item parented at the
graph container item is assigned `nextMaxZ()`; any other group item has its
containing-group chain collected (innermost to outermost) and each chain
member processed by `frontChainStep` in order. -/
def sendToFront (s : ZState) (item : Option ZItem) : ZState :=
  match item with
  | none => s
  | some it =>
      if ¬ it.isGroupItem then
        let zs := nextMaxZ s
        setZ zs.2 it.sid zs.1
      else if it.parent = none then
        let zs := nextMaxZ s
        setZ zs.2 it.sid zs.1
      else
        (collectGroups s it).foldl frontChainStep s

lemma frontChainStep_zOf_ne (s : ZState) (g : ZItem) (j : Nat) (h : j ≠ g.sid) :
    (frontChainStep s g).zOf j = s.zOf j := by
  unfold frontChainStep
  cases hp : g.parent <;> simp [setZ, nextMaxZ, updateMaxZ, h] <;>
    split <;> simp [h]

@[simp] lemma setZ_maxZ (s : ZState) (i : Nat) (v : ℚ) :
    (setZ s i v).maxZ = s.maxZ := rfl

lemma frontChainStep_maxZ_le (s : ZState) (g : ZItem) :
    s.maxZ ≤ (frontChainStep s g).maxZ := by
  unfold frontChainStep
  cases hp : g.parent with
  | none =>
      simp [nextMaxZ]
  | some p =>
      simp only [setZ_maxZ, updateMaxZ]
      split
      next h => exact le_of_lt h
      next => exact le_refl _

lemma foldl_frontChainStep_zOf_ne (l : List ZItem) (s : ZState) (j : Nat)
    (h : ∀ g ∈ l, j ≠ g.sid) :
    (l.foldl frontChainStep s).zOf j = s.zOf j := by
  induction l generalizing s with
  | nil => rfl
  | cons g l ih =>
      simp only [List.foldl_cons]
      rw [ih _ (fun g' hg' => h g' (List.mem_cons_of_mem _ hg'))]
      exact frontChainStep_zOf_ne s g j (h g (List.mem_cons_self _ _))

lemma foldl_frontChainStep_maxZ_le (l : List ZItem) (s : ZState) :
    s.maxZ ≤ (l.foldl frontChainStep s).maxZ := by
  induction l generalizing s with
  | nil => exact le_refl _
  | cons g l ih =>
      simp only [List.foldl_cons]
      exact le_trans (frontChainStep_maxZ_le s g) (ih _)

lemma collectGroupsAux_head (s : ZState) (fuel : Nat) (it : ZItem) :
    (collectGroupsAux s fuel it).head? = some it := by
  cases fuel <;> rfl

lemma collectGroupsAux_chain (s : ZState) (fuel : Nat) (it : ZItem) (k : Nat)
    (g g' : ZItem)
    (hg : (collectGroupsAux s fuel it).get? k = some g)
    (hg' : (collectGroupsAux s fuel it).get? (k + 1) = some g') :
    g.groupParent.bind (itemOf s) = some g' := by
  induction fuel generalizing it k with
  | zero =>
      cases k <;> simp [collectGroupsAux] at hg hg'
  | succ fuel ih =>
      rw [collectGroupsAux] at hg hg'
      cases hpar : it.groupParent.bind (itemOf s) with
      | none =>
          simp only [hpar] at hg hg'
          cases k <;> simp at hg hg'
      | some pit =>
          simp only [hpar] at hg hg'
          cases k with
          | zero =>
              rw [List.get?_cons_zero] at hg
              rw [List.get?_cons_succ] at hg'
              cases hg
              have hhead := collectGroupsAux_head s fuel pit
              cases hcg : collectGroupsAux s fuel pit with
              | nil => rw [hcg] at hg'; simp at hg'
              | cons x xs =>
                  rw [hcg] at hg'
                  rw [hcg] at hhead
                  simp at hg' hhead
                  rw [hpar, ← hhead, hg']
          | succ k =>
              rw [List.get?_cons_succ] at hg hg'
              exact ih pit k hg hg'

/-- C2 counterexample: node item 2 (a non-group node) is nested inside the
root-parented group whose item is 1; the claim requires `sendToFront` on
the node to walk its containing-group chain and assign the root-parented
containing group `nextMaxZ()` (= 11 here), but the code takes the plain
node branch: the group's z stays 5 while the node itself gets 11. -/
theorem sendToFront_nested_node_counterexample :
    (sendToFront ⟨[⟨1, true, none, none⟩, ⟨2, false, some 1, some 1⟩], 10,
        fun j => if j = 1 then 5 else 6⟩
      (some ⟨2, false, some 1, some 1⟩)).zOf 1 ≠ (10 : ℚ) + 1 ∧
    (sendToFront ⟨[⟨1, true, none, none⟩, ⟨2, false, some 1, some 1⟩], 10,
        fun j => if j = 1 then 5 else 6⟩
      (some ⟨2, false, some 1, some 1⟩)).zOf 2 = (10 : ℚ) + 1 := by
  constructor <;> norm_num [sendToFront, nextMaxZ, setZ]

/-- C2 (amended): `sendToFront` walks the containing-group chain only when
the item itself is a group item whose parent is not the root container: a
non-group node item — even one nested inside a group — is simply assigned
`nextMaxZ()`, as is a group item parented at the root container. For any
other group item the collected chain runs from the item itself outward
through the containing-group links (innermost to outermost) and each chain
member is processed in order: a root-parented member is assigned
`nextMaxZ()`, a group-parented member gets (maximum z among its parent
container's current children) + 1 with the root `maxZ` advanced whenever
that value exceeds it; items outside the chain keep their z and `maxZ`
never decreases. -/
theorem sendToFront_spec (s : ZState) (it : ZItem) :
    (it.isGroupItem = false →
       sendToFront s (some it) = setZ { s with maxZ := s.maxZ + 1 } it.sid (s.maxZ + 1)) ∧
    (it.isGroupItem = true → it.parent = none →
       sendToFront s (some it) = setZ { s with maxZ := s.maxZ + 1 } it.sid (s.maxZ + 1)) ∧
    (it.isGroupItem = true → it.parent ≠ none →
       sendToFront s (some it) = (collectGroups s it).foldl frontChainStep s ∧
       (∀ j, (∀ g ∈ collectGroups s it, j ≠ g.sid) →
          (sendToFront s (some it)).zOf j = s.zOf j) ∧
       s.maxZ ≤ (sendToFront s (some it)).maxZ ∧
       (collectGroups s it).head? = some it ∧
       (∀ k g g', (collectGroups s it).get? k = some g →
          (collectGroups s it).get? (k + 1) = some g' →
          g.groupParent.bind (itemOf s) = some g')) := by
  refine ⟨?_, ?_, ?_⟩
  · intro h
    simp [sendToFront, h, nextMaxZ]
  · intro h hp
    simp [sendToFront, h, hp, nextMaxZ]
  · intro h hp
    have hsend : sendToFront s (some it) = (collectGroups s it).foldl frontChainStep s := by
      simp [sendToFront, h, hp]
    refine ⟨hsend, ?_, ?_, collectGroupsAux_head s _ it, ?_⟩
    · intro j hj
      rw [hsend]
      exact foldl_frontChainStep_zOf_ne _ s j hj
    · rw [hsend]
      exact foldl_frontChainStep_maxZ_le _ s
    · intro k g g' hg hg'
      exact collectGroupsAux_chain s _ it k g g' hg hg'

/-- C2 witness: a group item (4) nested inside root group item 3; sending
it to front leaves the unrelated item 7's z unchanged and does not lower
`maxZ`, and the collected chain starts with the item itself. -/
theorem sendToFront_spec_witness :
    (sendToFront ⟨[⟨3, true, none, none⟩, ⟨4, true, some 3, some 3⟩], 10, fun _ => 1⟩
      (some ⟨4, true, some 3, some 3⟩)).zOf 7 = 1 ∧
    (10 : ℚ) ≤ (sendToFront ⟨[⟨3, true, none, none⟩, ⟨4, true, some 3, some 3⟩], 10,
        fun _ => 1⟩ (some ⟨4, true, some 3, some 3⟩)).maxZ := by
  have h := (sendToFront_spec
      ⟨[⟨3, true, none, none⟩, ⟨4, true, some 3, some 3⟩], 10, fun _ => 1⟩
      ⟨4, true, some 3, some 3⟩).2.2 rfl (by decide)
  exact ⟨h.2.1 7 (by decide), h.2.2.1⟩

/-- C8: `nextMaxZ` strictly increases the `maxZ` high-water mark on every
call, and for any three non-group node items A, B, C with pairwise distinct
identities, `sendToFront(A)` then `sendToFront(B)` then `sendToFront(C)`
yields z(A) < z(B) < z(C) from any starting state. -/
theorem sendToFront_three_nodes_order (s : ZState) (a b c : ZItem)
    (ha : a.isGroupItem = false) (hb : b.isGroupItem = false)
    (hc : c.isGroupItem = false)
    (hab : a.sid ≠ b.sid) (hac : a.sid ≠ c.sid) (hbc : b.sid ≠ c.sid) :
    (∀ t : ZState, t.maxZ < (nextMaxZ t).2.maxZ) ∧
    ((sendToFront (sendToFront (sendToFront s (some a)) (some b)) (some c)).zOf a.sid <
       (sendToFront (sendToFront (sendToFront s (some a)) (some b)) (some c)).zOf b.sid ∧
     (sendToFront (sendToFront (sendToFront s (some a)) (some b)) (some c)).zOf b.sid <
       (sendToFront (sendToFront (sendToFront s (some a)) (some b)) (some c)).zOf c.sid) := by
  refine ⟨fun t => by simp [nextMaxZ], ?_, ?_⟩ <;>
    simp [sendToFront, ha, hb, hc, nextMaxZ, setZ, hab, hac, hbc] <;>
    linarith

/-- C8 witness: three concrete node items from `maxZ = 0`. -/
theorem sendToFront_three_nodes_order_witness :
    (sendToFront (sendToFront (sendToFront ⟨[], 0, fun _ => 0⟩
        (some ⟨1, false, none, none⟩)) (some ⟨2, false, none, none⟩))
        (some ⟨3, false, none, none⟩)).zOf 1 <
      (sendToFront (sendToFront (sendToFront ⟨[], 0, fun _ => 0⟩
        (some ⟨1, false, none, none⟩)) (some ⟨2, false, none, none⟩))
        (some ⟨3, false, none, none⟩)).zOf 2 := by
  have h := sendToFront_three_nodes_order ⟨[], 0, fun _ => 0⟩
    ⟨1, false, none, none⟩ ⟨2, false, none, none⟩ ⟨3, false, none, none⟩
    rfl rfl rfl (by decide) (by decide) (by decide)
  exact h.2.1

/-- A `QQmlComponent`: for the insertion path only its error state matters. -/
structure Comp where
  isError : Bool
deriving DecidableEq, Repr

/-- Topology-store state used by `Graph::insertNode(SharedNode, ...)`:
owned node identities, the directed edge list, the group-membership map
(node identity to owning group identity), the default node delegate and the
stacking state of the inserted items. -/
structure NGraph where
  nodes : List Nat
  edges : List (Nat × Nat)
  memberOf : List (Nat × Nat)
  nodeDelegate : Option Comp
  maxZ : ℚ
  zOf : Nat → ℚ

/-- `Graph::insertNode(const SharedNode&, QQmlComponent*, qan::NodeStyle*)`
(qanGraph.cpp:580). Returns false without touching the graph when: the node
is null; no component is given and the default node delegate is also
absent; the effective component is in error state; the node style is null
(the node item then stays null and `qan::Error` is thrown); or visual item
creation fails (`createOk` models the external `createFromComponent`
outcome). Otherwise `_maxZ` is incremented, the item z is set to it, and
the node is inserted. The `gtpo` layer's `insert_node` is not under `src/`;
modelled from the spec: topology insertion of a fresh node succeeds
unconditionally. -/
def insertNode (g : NGraph) (node : Option Nat) (nodeComponent : Option Comp)
    (nodeStyle : Bool) (createOk : Bool) : Bool × NGraph :=
  match node with
  | none => (false, g)
  | some n =>
      match nodeComponent.orElse (fun _ => g.nodeDelegate) with
      | none => (false, g)
      | some comp =>
          if comp.isError then (false, g)
          else if ¬ nodeStyle then (false, g)
          else if ¬ createOk then (false, g)
          else
            (true, { g with nodes := g.nodes ++ [n],
                            maxZ := g.maxZ + 1,
                            zOf := fun j => if j = n then g.maxZ + 1 else g.zOf j })

/-- C4 counterexample: in a graph without a default node delegate,
`insertNode` called with a valid node but no component argument fails (the
claim states it succeeds unconditionally for every graph state and returns
a valid node reference rather than a failure). -/
theorem insertNode_fails_without_delegate :
    (insertNode ⟨[], [], [], none, 0, fun _ => 0⟩ (some 1) none true true).1 = false ∧
    (insertNode ⟨[], [], [], none, 0, fun _ => 0⟩ (some 1) none true true).2.nodes = [] := by
  constructor <;> rfl

/-- C4 (amended): `insertNode(SharedNode, ...)` is not unconditional: it
returns false and leaves the graph unchanged exactly when the node is null,
no effective component exists (argument and default delegate both absent),
the effective component has an error, the style is null, or item creation
fails; otherwise it returns true, the inserted node has no incident edges
and no owning group (given it was fresh), and its item z is the incremented
`maxZ`, strictly above every existing entity's z whenever `maxZ` was an
upper bound of those z values. -/
theorem insertNode_spec (g : NGraph) (n : Nat) (nodeComponent : Option Comp)
    (nodeStyle createOk : Bool)
    (hfresh : ∀ e ∈ g.edges, e.1 ≠ n ∧ e.2 ≠ n)
    (hnogroup : ∀ m ∈ g.memberOf, m.1 ≠ n)
    (hz : ∀ i ∈ g.nodes, g.zOf i ≤ g.maxZ) :
    (∀ node, (insertNode g node nodeComponent nodeStyle createOk).1 = false →
       (insertNode g node nodeComponent nodeStyle createOk).2 = g) ∧
    ((insertNode g (some n) nodeComponent nodeStyle createOk).1 = true ↔
       ((nodeComponent.orElse (fun _ => g.nodeDelegate)).isSome ∧
        (∀ comp, nodeComponent.orElse (fun _ => g.nodeDelegate) = some comp →
           comp.isError = false) ∧
        nodeStyle = true ∧ createOk = true)) ∧
    ((insertNode g (some n) nodeComponent nodeStyle createOk).1 = true →
       (n ∈ (insertNode g (some n) nodeComponent nodeStyle createOk).2.nodes ∧
        (∀ e ∈ (insertNode g (some n) nodeComponent nodeStyle createOk).2.edges,
           e.1 ≠ n ∧ e.2 ≠ n) ∧
        (∀ m ∈ (insertNode g (some n) nodeComponent nodeStyle createOk).2.memberOf,
           m.1 ≠ n) ∧
        (insertNode g (some n) nodeComponent nodeStyle createOk).2.zOf n = g.maxZ + 1 ∧
        (∀ i ∈ g.nodes, i ≠ n →
           (insertNode g (some n) nodeComponent nodeStyle createOk).2.zOf i <
           (insertNode g (some n) nodeComponent nodeStyle createOk).2.zOf n))) := by
  refine ⟨?_, ?_, ?_⟩
  · intro node hfail
    unfold insertNode at hfail ⊢
    cases node with
    | none => rfl
    | some m =>
        cases hcomp : nodeComponent.orElse (fun _ => g.nodeDelegate) with
        | none => simp [hcomp]
        | some comp =>
            simp only [hcomp] at hfail ⊢
            by_cases he : comp.isError <;> by_cases hs : nodeStyle <;>
              by_cases hk : createOk <;> simp_all
  · cases hcomp : nodeComponent.orElse (fun _ => g.nodeDelegate) with
    | none => simp [insertNode, hcomp]
    | some comp =>
        by_cases he : comp.isError <;> by_cases hs : nodeStyle <;>
          by_cases hk : createOk <;>
          simp_all [insertNode, hcomp]
  · intro hok
    unfold insertNode at hok ⊢
    cases hcomp : nodeComponent.orElse (fun _ => g.nodeDelegate) with
    | none => simp [hcomp] at hok
    | some comp =>
        simp only [hcomp] at hok ⊢
        by_cases he : comp.isError <;> by_cases hs : nodeStyle <;>
          by_cases hk : createOk <;> simp_all
        refine ⟨hfresh, hnogroup, ?_⟩
        intro i hi hne
        linarith [hz i hi]

/-- C4 witness: concrete successful and failing insertions. -/
theorem insertNode_spec_witness :
    (insertNode ⟨[], [], [], some ⟨false⟩, 0, fun _ => 0⟩ (some 1) none true true).1
        = true ∧
    (insertNode ⟨[], [], [], some ⟨false⟩, 0, fun _ => 0⟩ (some 1) none true true).2.zOf 1
        = 1 := by
  have h := insertNode_spec ⟨[], [], [], some ⟨false⟩, 0, fun _ => 0⟩ 1 none true true
    (by simp) (by simp) (by simp)
  refine ⟨?_, ?_⟩
  · exact h.2.1.mpr ⟨by decide, by intro c hc; cases hc; rfl, rfl, rfl⟩
  · have hz := (h.2.2 (h.2.1.mpr ⟨by decide, by intro c hc; cases hc; rfl, rfl, rfl⟩)).2.2.2.1
    simpa using hz

/-- Grouping-relevant topology state for `Graph::groupNode`. -/
structure GGraph where
  gnodes : List Nat
  gmemberOf : List (Nat × Nat)
deriving DecidableEq, Repr

/-- Modelled from the spec: `gtpo::group_node` (the topology layer is not
under `src/`). Grouping fails (throws) when either endpoint is not owned by
the store; otherwise it detaches the node from any prior group and attaches
it to the group's member set, leaving the store untouched on failure. -/
def group_node (g : GGraph) (node group : Nat) : Option GGraph :=
  if node ∈ g.gnodes ∧ group ∈ g.gnodes then
    some { g with gmemberOf := (node, group) :: g.gmemberOf.filter (fun m => m.1 ≠ node) }
  else none

/-- `Graph::groupNode` (qanGraph.cpp:992): false for a null group or node;
false when `group == node` (no self-containment); otherwise delegates to
the topology layer, converting its failure into a false return. -/
def groupNode (g : GGraph) (group node : Option Nat) : Bool × GGraph :=
  match group, node with
  | none, _ => (false, g)
  | _, none => (false, g)
  | some grp, some nd =>
      if grp = nd then (false, g)
      else
        match group_node g nd grp with
        | none => (false, g)
        | some g' => (true, g')

/-- C9: `groupNode(group, node)` fails when `group == node` or when either
reference is null or not owned by the store, and on every failure it
returns false with the topology left exactly as it was before the call. -/
theorem groupNode_failure_atomic (g : GGraph) (group node : Option Nat) :
    ((groupNode g group node).1 = false → (groupNode g group node).2 = g) ∧
    (group = none → (groupNode g group node).1 = false) ∧
    (node = none → (groupNode g group node).1 = false) ∧
    (∀ x, group = some x → node = some x → (groupNode g group node).1 = false) ∧
    (∀ x, node = some x → x ∉ g.gnodes → (groupNode g group node).1 = false) ∧
    (∀ x, group = some x → x ∉ g.gnodes → (groupNode g group node).1 = false) := by
  cases group with
  | none => simp [groupNode]
  | some grp =>
      cases node with
      | none => simp [groupNode]
      | some nd =>
          by_cases heq : grp = nd
          · simp [groupNode, heq]
          · by_cases hn : nd ∈ g.gnodes <;> by_cases hg : grp ∈ g.gnodes <;>
              simp_all [groupNode, group_node, heq]

/-- C9 witness: self-grouping of an owned group fails and leaves the
store intact. -/
theorem groupNode_failure_atomic_witness :
    (groupNode ⟨[1], []⟩ (some 1) (some 1)).1 = false ∧
    (groupNode ⟨[1], []⟩ (some 1) (some 1)).2 = ⟨[1], []⟩ := by
  have h := groupNode_failure_atomic ⟨[1], []⟩ (some 1) (some 1)
  exact ⟨h.2.2.2.1 1 rfl rfl, h.1 (h.2.2.2.1 1 rfl rfl)⟩

/-- Traversal-relevant topology of a graph: the owned node identities (in
store insertion order) and, per node, its ordered out-node and in-node
adjacency, its group flag, its member nodes (for groups) and its owning
group. -/
structure TGraph where
  nodeIds : List Nat
  outNodes : Nat → List Nat
  inNodes : Nat → List Nat
  isGroup : Nat → Bool
  members : Nat → List Nat
  groupOf : Nat → Option Nat

/-- The node universe as a finite set (the marks sets stay inside it). -/
def TGraph.univ (g : TGraph) : Finset Nat := g.nodeIds.toFinset

/-- Store consistency: every adjacency target, group member and owning
group of an owned node is itself owned. -/
def wellFormed (g : TGraph) : Prop :=
  ∀ n ∈ g.nodeIds,
    (∀ m ∈ g.outNodes n, m ∈ g.nodeIds) ∧
    (∀ m ∈ g.inNodes n, m ∈ g.nodeIds) ∧
    (∀ m ∈ g.members n, m ∈ g.nodeIds) ∧
    (∀ h ∈ (g.groupOf n).toList, h ∈ g.nodeIds)

/-- Visit state of the recursive collectors: the marks set
(`std::unordered_set` keyed by node identity) and the output vector. -/
abbrev VisitSt := Finset Nat × List Nat

/-- `collectDfsRec` / `collectAncestorsDfsRec` (qanGraph.cpp:1677, 1732),
generic in the ordered list of traversal targets of a node: an
already-marked node is skipped; otherwise the node is marked, appended to
the output, and its targets are visited in order. The C++ recursion
carries no fuel; the fuel parameter makes the model total, and
`visit_fuel_eq` below shows that every fuel above the number of unmarked
universe nodes computes the same result — the termination argument. -/
def visitNode (succs : Nat → List Nat) : Nat → Nat → VisitSt → VisitSt
  | 0, _, st => st
  | fuel + 1, n, st =>
      if n ∈ st.1 then st
      else (succs n).foldl (fun acc m => visitNode succs fuel m acc)
             (insert n st.1, st.2 ++ [n])

/-- Visiting a list of targets in order with a fixed fuel. -/
def visitList (succs : Nat → List Nat) (fuel : Nat) (ms : List Nat) (st : VisitSt) :
    VisitSt :=
  ms.foldl (fun acc m => visitNode succs fuel m acc) st

lemma visitList_nil (succs : Nat → List Nat) (fuel : Nat) (st : VisitSt) :
    visitList succs fuel [] st = st := rfl

lemma visitList_cons (succs : Nat → List Nat) (fuel : Nat) (m : Nat) (ms : List Nat)
    (st : VisitSt) :
    visitList succs fuel (m :: ms) st = visitList succs fuel ms (visitNode succs fuel m st) :=
  rfl

lemma visitNode_zero (succs : Nat → List Nat) (n : Nat) (st : VisitSt) :
    visitNode succs 0 n st = st := rfl

lemma visitNode_succ (succs : Nat → List Nat) (fuel n : Nat) (st : VisitSt) :
    visitNode succs (fuel + 1) n st =
      if n ∈ st.1 then st
      else visitList succs fuel (succs n) (insert n st.1, st.2 ++ [n]) := rfl

lemma visitList_zero (succs : Nat → List Nat) (ms : List Nat) (st : VisitSt) :
    visitList succs 0 ms st = st := by
  induction ms with
  | nil => rfl
  | cons m ms ih => rw [visitList_cons, visitNode_zero]; exact ih

/-- All traversal targets of universe nodes stay in the universe. -/
def succsClosed (succs : Nat → List Nat) (univ : Finset Nat) : Prop :=
  ∀ n ∈ univ, ∀ m ∈ succs n, m ∈ univ

lemma visit_mono (succs : Nat → List Nat) :
    ∀ fuel, (∀ n st, st.1 ⊆ (visitNode succs fuel n st).1) ∧
      (∀ ms st, st.1 ⊆ (visitList succs fuel ms st).1) := by
  intro fuel
  induction fuel with
  | zero =>
      refine ⟨fun n st => ?_, fun ms st => ?_⟩
      · rw [visitNode_zero]
      · rw [visitList_zero]
  | succ fuel ih =>
      have hnode : ∀ n st, st.1 ⊆ (visitNode succs (fuel + 1) n st).1 := by
        intro n st
        rw [visitNode_succ]
        split
        · exact subset_rfl
        · exact subset_trans (Finset.subset_insert n st.1)
            (ih.2 (succs n) (insert n st.1, st.2 ++ [n]))
      refine ⟨hnode, fun ms => ?_⟩
      induction ms with
      | nil => intro st; rw [visitList_nil]
      | cons m ms ihm =>
          intro st
          rw [visitList_cons]
          exact subset_trans (hnode m st) (ihm _)

lemma visit_closed (succs : Nat → List Nat) (univ : Finset Nat)
    (hcl : succsClosed succs univ) :
    ∀ fuel, (∀ n st, n ∈ univ → st.1 ⊆ univ → (visitNode succs fuel n st).1 ⊆ univ) ∧
      (∀ ms st, (∀ m ∈ ms, m ∈ univ) → st.1 ⊆ univ →
        (visitList succs fuel ms st).1 ⊆ univ) := by
  intro fuel
  induction fuel with
  | zero =>
      refine ⟨fun n st _ hst => ?_, fun ms st _ hst => ?_⟩
      · rwa [visitNode_zero]
      · rwa [visitList_zero]
  | succ fuel ih =>
      have hnode : ∀ n st, n ∈ univ → st.1 ⊆ univ →
          (visitNode succs (fuel + 1) n st).1 ⊆ univ := by
        intro n st hn hst
        rw [visitNode_succ]
        split
        · exact hst
        · exact ih.2 _ _ (hcl n hn) (Finset.insert_subset hn hst)
      refine ⟨hnode, fun ms => ?_⟩
      induction ms with
      | nil => intro st _ hst; rwa [visitList_nil]
      | cons m ms ihm =>
          intro st hms hst
          rw [visitList_cons]
          exact ihm _ (fun x hx => hms x (List.mem_cons_of_mem _ hx))
            (hnode m st (hms m (List.mem_cons_self _ _)) hst)

/-- Output invariant of the collectors: the output vector has no duplicate
and every output element is marked. -/
def OutInv (st : VisitSt) : Prop := st.2.Nodup ∧ ∀ x ∈ st.2, x ∈ st.1

lemma visit_outInv (succs : Nat → List Nat) :
    ∀ fuel, (∀ n st, OutInv st → OutInv (visitNode succs fuel n st)) ∧
      (∀ ms st, OutInv st → OutInv (visitList succs fuel ms st)) := by
  intro fuel
  induction fuel with
  | zero =>
      refine ⟨fun n st h => ?_, fun ms st h => ?_⟩
      · rwa [visitNode_zero]
      · rwa [visitList_zero]
  | succ fuel ih =>
      have hnode : ∀ n st, OutInv st → OutInv (visitNode succs (fuel + 1) n st) := by
        intro n st h
        rw [visitNode_succ]
        split
        next => exact h
        next hn =>
            refine ih.2 _ _ ⟨?_, ?_⟩
            · exact List.nodup_append.2 ⟨h.1, List.nodup_singleton n,
                by
                  intro x hx hxn
                  rw [List.mem_singleton] at hxn
                  exact hn (hxn ▸ h.2 x hx)⟩
            · intro x hx
              rcases List.mem_append.1 hx with hx | hx
              · exact Finset.mem_insert_of_mem (h.2 x hx)
              · rw [List.mem_singleton] at hx
                exact hx ▸ Finset.mem_insert_self n st.1
      refine ⟨hnode, fun ms => ?_⟩
      induction ms with
      | nil => intro st h; rwa [visitList_nil]
      | cons m ms ihm =>
          intro st h
          rw [visitList_cons]
          exact ihm _ (hnode m st h)

/-- Marks and output hold the same identities (they always grow together). -/
def MarksEq (st : VisitSt) : Prop := ∀ x, x ∈ st.1 ↔ x ∈ st.2

lemma visit_marksEq (succs : Nat → List Nat) :
    ∀ fuel, (∀ n st, MarksEq st → MarksEq (visitNode succs fuel n st)) ∧
      (∀ ms st, MarksEq st → MarksEq (visitList succs fuel ms st)) := by
  intro fuel
  induction fuel with
  | zero =>
      refine ⟨fun n st h => ?_, fun ms st h => ?_⟩
      · rwa [visitNode_zero]
      · rwa [visitList_zero]
  | succ fuel ih =>
      have hnode : ∀ n st, MarksEq st → MarksEq (visitNode succs (fuel + 1) n st) := by
        intro n st h
        rw [visitNode_succ]
        split
        next => exact h
        next hn =>
            refine ih.2 _ _ ?_
            intro x
            rw [Finset.mem_insert, List.mem_append, List.mem_singleton, h x, or_comm]
      refine ⟨hnode, fun ms => ?_⟩
      induction ms with
      | nil => intro st h; rwa [visitList_nil]
      | cons m ms ihm =>
          intro st h
          rw [visitList_cons]
          exact ihm _ (hnode m st h)

lemma visitNode_mem (succs : Nat → List Nat) (fuel n : Nat) (st : VisitSt)
    (hf : 0 < fuel) : n ∈ (visitNode succs fuel n st).1 := by
  cases fuel with
  | zero => omega
  | succ fuel =>
      rw [visitNode_succ]
      split
      next h => exact h
      next h =>
          exact (visit_mono succs fuel).2 (succs n) (insert n st.1, st.2 ++ [n])
            (Finset.mem_insert_self n st.1)

/-- Fuel adequacy (the termination argument for the C++ recursion): any two
fuels above the number of unmarked universe nodes compute the same visit. -/
lemma visit_fuel_eq (succs : Nat → List Nat) (univ : Finset Nat)
    (hcl : succsClosed succs univ) :
    ∀ f₁ f₂ n st, n ∈ univ → st.1 ⊆ univ →
      univ.card - st.1.card < f₁ → univ.card - st.1.card < f₂ →
      visitNode succs f₁ n st = visitNode succs f₂ n st := by
  intro f₁
  induction f₁ using Nat.strong_induction_on with
  | _ f₁ ih =>
    intro f₂ n st hn hst h1 h2
    cases f₁ with
    | zero => omega
    | succ k =>
      cases f₂ with
      | zero => omega
      | succ j =>
        rw [visitNode_succ, visitNode_succ]
        split
        next => rfl
        next hmem =>
          have hcard : st.1.card + 1 ≤ univ.card := by
            have hins : insert n st.1 ⊆ univ := Finset.insert_subset hn hst
            calc st.1.card + 1 = (insert n st.1).card :=
                  (Finset.card_insert_of_not_mem hmem).symm
              _ ≤ univ.card := Finset.card_le_card hins
          have hcard' : (insert n st.1).card = st.1.card + 1 :=
            Finset.card_insert_of_not_mem hmem
          have hlist : ∀ ms, (∀ m ∈ ms, m ∈ univ) → ∀ (st : VisitSt), st.1 ⊆ univ →
              univ.card - st.1.card < k → univ.card - st.1.card < j →
              visitList succs k ms st = visitList succs j ms st := by
            intro ms
            induction ms with
            | nil => intro _ st _ _ _; rw [visitList_nil, visitList_nil]
            | cons m ms ihm =>
                intro hms st hstu hk hj
                rw [visitList_cons, visitList_cons]
                have hnodeEq : visitNode succs k m st = visitNode succs j m st :=
                  ih k (Nat.lt_succ_self k) j m st (hms m (List.mem_cons_self _ _)) hstu hk hj
                rw [← hnodeEq]
                have hstu1 : (visitNode succs k m st).1 ⊆ univ :=
                  (visit_closed succs univ hcl k).1 m st (hms m (List.mem_cons_self _ _)) hstu
                have hcardle : st.1.card ≤ (visitNode succs k m st).1.card :=
                  Finset.card_le_card ((visit_mono succs k).1 m st)
                exact ihm (fun x hx => hms x (List.mem_cons_of_mem _ hx)) _ hstu1
                  (by omega) (by omega)
          exact hlist (succs n) (hcl n hn) (insert n st.1, st.2 ++ [n])
            (Finset.insert_subset hn hst) (by simp only [hcard']; omega)
            (by simp only [hcard']; omega)

/-- With adequate fuel, every node appended to the output had all of its
traversal targets visited: a new output element's targets are all marked in
the final state. -/
lemma visit_pushClosed (succs : Nat → List Nat) (univ : Finset Nat)
    (hcl : succsClosed succs univ) :
    ∀ f, ∀ n st, n ∈ univ → st.1 ⊆ univ → univ.card - st.1.card < f →
      ∀ x ∈ (visitNode succs f n st).2,
        x ∈ st.2 ∨ ∀ m ∈ succs x, m ∈ (visitNode succs f n st).1 := by
  intro f
  induction f using Nat.strong_induction_on with
  | _ f ih =>
    intro n st hn hst hb
    cases f with
    | zero => omega
    | succ k =>
      rw [visitNode_succ]
      split
      next => exact fun x hx => Or.inl hx
      next hmem =>
        have hcard : st.1.card + 1 ≤ univ.card := by
          have hins : insert n st.1 ⊆ univ := Finset.insert_subset hn hst
          calc st.1.card + 1 = (insert n st.1).card :=
                (Finset.card_insert_of_not_mem hmem).symm
            _ ≤ univ.card := Finset.card_le_card hins
        have hcard' : (insert n st.1).card = st.1.card + 1 :=
          Finset.card_insert_of_not_mem hmem
        have hlist : ∀ ms, (∀ m ∈ ms, m ∈ univ) → ∀ (st : VisitSt), st.1 ⊆ univ →
            univ.card - st.1.card < k →
            (∀ x ∈ (visitList succs k ms st).2,
               x ∈ st.2 ∨ ∀ m' ∈ succs x, m' ∈ (visitList succs k ms st).1) ∧
            (∀ m ∈ ms, m ∈ (visitList succs k ms st).1) := by
          intro ms
          induction ms with
          | nil =>
              intro _ st _ _
              exact ⟨fun x hx => Or.inl hx, fun m hm => absurd hm (List.not_mem_nil m)⟩
          | cons m ms ihm =>
              intro hms st hstu hk
              rw [visitList_cons]
              have hm_univ := hms m (List.mem_cons_self _ _)
              have hstu1 : (visitNode succs k m st).1 ⊆ univ :=
                (visit_closed succs univ hcl k).1 m st hm_univ hstu
              have hcardle : st.1.card ≤ (visitNode succs k m st).1.card :=
                Finset.card_le_card ((visit_mono succs k).1 m st)
              have hbound1 : univ.card - (visitNode succs k m st).1.card < k := by omega
              have hrest := ihm (fun x hx => hms x (List.mem_cons_of_mem _ hx)) _ hstu1 hbound1
              refine ⟨?_, ?_⟩
              · intro x hx
                rcases hrest.1 x hx with hx' | hx'
                · rcases ih k (Nat.lt_succ_self k) m st hm_univ hstu hk x hx' with hx'' | hx''
                  · exact Or.inl hx''
                  · exact Or.inr fun m' hm' =>
                      (visit_mono succs k).2 ms (visitNode succs k m st) (hx'' m' hm')
                · exact Or.inr hx'
              · intro m' hm'
                rcases List.mem_cons.1 hm' with rfl | hm''
                · exact (visit_mono succs k).2 ms (visitNode succs k m' st)
                    (visitNode_mem succs k m' st (by omega))
                · exact hrest.2 m' hm''
        intro x hx
        have hb' : univ.card - (insert n st.1).card < k := by
          simp only [hcard']; omega
        have h := hlist (succs n) (hcl n hn) (insert n st.1, st.2 ++ [n])
          (Finset.insert_subset hn hst) hb'
        rcases h.1 x hx with hx' | hx'
        · rcases List.mem_append.1 hx' with hx'' | hx''
          · exact Or.inl hx''
          · rw [List.mem_singleton] at hx''
            subst hx''
            exact Or.inr h.2
        · exact Or.inr hx'

lemma visitList_fuel_eq (succs : Nat → List Nat) (univ : Finset Nat)
    (hcl : succsClosed succs univ) :
    ∀ f₁ f₂ ms (st : VisitSt), (∀ m ∈ ms, m ∈ univ) → st.1 ⊆ univ →
      univ.card - st.1.card < f₁ → univ.card - st.1.card < f₂ →
      visitList succs f₁ ms st = visitList succs f₂ ms st := by
  intro f₁ f₂ ms
  induction ms with
  | nil => intro st _ _ _ _; rw [visitList_nil, visitList_nil]
  | cons m ms ihm =>
      intro st hms hstu h1 h2
      rw [visitList_cons, visitList_cons]
      have hnodeEq := visit_fuel_eq succs univ hcl f₁ f₂ m st
        (hms m (List.mem_cons_self _ _)) hstu h1 h2
      rw [← hnodeEq]
      have hstu1 : (visitNode succs f₁ m st).1 ⊆ univ :=
        (visit_closed succs univ hcl f₁).1 m st (hms m (List.mem_cons_self _ _)) hstu
      have hcardle : st.1.card ≤ (visitNode succs f₁ m st).1.card :=
        Finset.card_le_card ((visit_mono succs f₁).1 m st)
      exact ihm _ (fun x hx => hms x (List.mem_cons_of_mem _ hx)) hstu1 (by omega) (by omega)

lemma visitList_mem (succs : Nat → List Nat) (f : Nat) (hf : 0 < f) :
    ∀ ms (st : VisitSt) m, m ∈ ms → m ∈ (visitList succs f ms st).1 := by
  intro ms
  induction ms with
  | nil => intro st m hm; exact absurd hm (List.not_mem_nil m)
  | cons m' ms ihm =>
      intro st m hm
      rw [visitList_cons]
      rcases List.mem_cons.1 hm with rfl | hm'
      · exact (visit_mono succs f).2 ms (visitNode succs f m st)
          (visitNode_mem succs f m st hf)
      · exact ihm _ m hm'

lemma visitList_pushClosed (succs : Nat → List Nat) (univ : Finset Nat)
    (hcl : succsClosed succs univ) :
    ∀ f ms (st : VisitSt), (∀ m ∈ ms, m ∈ univ) → st.1 ⊆ univ →
      univ.card - st.1.card < f →
      ∀ x ∈ (visitList succs f ms st).2,
        x ∈ st.2 ∨ ∀ m' ∈ succs x, m' ∈ (visitList succs f ms st).1 := by
  intro f ms
  induction ms with
  | nil => intro st _ _ _ x hx; exact Or.inl hx
  | cons m ms ihm =>
      intro st hms hstu hb x hx
      rw [visitList_cons] at hx ⊢
      have hm_univ := hms m (List.mem_cons_self _ _)
      have hstu1 : (visitNode succs f m st).1 ⊆ univ :=
        (visit_closed succs univ hcl f).1 m st hm_univ hstu
      have hcardle : st.1.card ≤ (visitNode succs f m st).1.card :=
        Finset.card_le_card ((visit_mono succs f).1 m st)
      rcases ihm _ (fun y hy => hms y (List.mem_cons_of_mem _ hy)) hstu1 (by omega) x hx
        with hx' | hx'
      · rcases visit_pushClosed succs univ hcl f m st hm_univ hstu hb x hx' with hx'' | hx''
        · exact Or.inl hx''
        · exact Or.inr fun m' hm' =>
            (visit_mono succs f).2 ms (visitNode succs f m st) (hx'' m' hm')
      · exact Or.inr hx'

/-- `collectDfsRec` traversal targets (qanGraph.cpp:1688-1697): the group's
member nodes first (only when `collectGroup` is set and the node is a
group), then the out-nodes, in order. -/
def descSuccs (g : TGraph) (cg : Bool) (n : Nat) : List Nat :=
  (if cg && g.isGroup n then g.members n else []) ++ g.outNodes n

/-- `collectAncestorsDfsRec` traversal targets (qanGraph.cpp:1743-1755):
the group's member nodes (when `collectGroup` is set and the node is a
group), then the node's owning group (unconditionally), then the in-nodes. -/
def ancSuccs (g : TGraph) (cg : Bool) (n : Nat) : List Nat :=
  ((if cg && g.isGroup n then g.members n else []) ++ (g.groupOf n).toList)
    ++ g.inNodes n

/-- Fuel sufficient for every traversal of the store. -/
def dfsFuel (g : TGraph) : Nat := g.nodeIds.length + 1

/-- `Graph::collectDfs(const qan::Node&, bool)` (qanGraph.cpp:1660) with
explicit fuel: the start node itself is neither marked nor collected; its
group members (under `collectGroup`) and then its out-nodes are visited. -/
def collectDfsWithFuel (g : TGraph) (fuel n : Nat) (cg : Bool) : List Nat :=
  (visitList (descSuccs g cg) fuel (g.outNodes n)
    (if cg && g.isGroup n then visitList (descSuccs g cg) fuel (g.members n) (∅, [])
     else (∅, []))).2

/-- `collectDescendantsDFS` of a start node. -/
def collectDfs (g : TGraph) (n : Nat) (cg : Bool) : List Nat :=
  collectDfsWithFuel g (dfsFuel g) n cg

/-- `Graph::collectAncestorsDfs` (qanGraph.cpp:1708) with explicit fuel:
the start node is neither marked nor collected; its group members (under
`collectGroup`) and then its in-nodes are visited. The start node's own
owning group is not visited: that collection is commented out in the
source (qanGraph.cpp:1722-1726). -/
def collectAncestorsDfsWithFuel (g : TGraph) (fuel n : Nat) (cg : Bool) : List Nat :=
  (visitList (ancSuccs g cg) fuel (g.inNodes n)
    (if cg && g.isGroup n then visitList (ancSuccs g cg) fuel (g.members n) (∅, [])
     else (∅, []))).2

/-- `collectAncestorsDFS` of a start node. -/
def collectAncestorsDfs (g : TGraph) (n : Nat) (cg : Bool) : List Nat :=
  collectAncestorsDfsWithFuel g (dfsFuel g) n cg

lemma descSuccs_closed (g : TGraph) (cg : Bool) (hwf : wellFormed g) :
    succsClosed (descSuccs g cg) g.univ := by
  intro n hn m hm
  rw [TGraph.univ, List.mem_toFinset] at hn ⊢
  rcases List.mem_append.1 hm with hm' | hm'
  · by_cases hb : (cg && g.isGroup n) = true
    · rw [if_pos hb] at hm'
      exact (hwf n hn).2.2.1 m hm'
    · rw [if_neg hb] at hm'
      exact absurd hm' (List.not_mem_nil m)
  · exact (hwf n hn).1 m hm'

lemma ancSuccs_closed (g : TGraph) (cg : Bool) (hwf : wellFormed g) :
    succsClosed (ancSuccs g cg) g.univ := by
  intro n hn m hm
  rw [TGraph.univ, List.mem_toFinset] at hn ⊢
  rcases List.mem_append.1 hm with hm' | hm'
  · rcases List.mem_append.1 hm' with hm'' | hm''
    · by_cases hb : (cg && g.isGroup n) = true
      · rw [if_pos hb] at hm''
        exact (hwf n hn).2.2.1 m hm''
      · rw [if_neg hb] at hm''
        exact absurd hm'' (List.not_mem_nil m)
    · exact (hwf n hn).2.2.2 m hm''
  · exact (hwf n hn).2.1 m hm'

lemma univ_card_lt_dfsFuel (g : TGraph) : g.univ.card < dfsFuel g :=
  Nat.lt_succ_of_le (List.toFinset_card_le g.nodeIds)

lemma ancestors_core (g : TGraph) (cg : Bool) (hwf : wellFormed g)
    (ms : List Nat) (hms : ∀ m ∈ ms, m ∈ g.univ)
    (st1 : VisitSt)
    (hsub : st1.1 ⊆ g.univ)
    (hinv : OutInv st1) (hmeq : MarksEq st1)
    (hclosed1 : ∀ x ∈ st1.2, ∀ m ∈ ancSuccs g cg x, m ∈ st1.1) :
    (visitList (ancSuccs g cg) (dfsFuel g) ms st1).2.Nodup ∧
    (∀ x ∈ (visitList (ancSuccs g cg) (dfsFuel g) ms st1).2, ∀ gid,
       g.groupOf x = some gid →
       gid ∈ (visitList (ancSuccs g cg) (dfsFuel g) ms st1).2) := by
  have hcl := ancSuccs_closed g cg hwf
  have hcard := univ_card_lt_dfsFuel g
  have hb : g.univ.card - st1.1.card < dfsFuel g := by omega
  have hfin_closed : ∀ x ∈ (visitList (ancSuccs g cg) (dfsFuel g) ms st1).2,
      ∀ m ∈ ancSuccs g cg x, m ∈ (visitList (ancSuccs g cg) (dfsFuel g) ms st1).1 := by
    intro x hx
    rcases visitList_pushClosed (ancSuccs g cg) g.univ hcl (dfsFuel g) ms st1 hms hsub hb
        x hx with h | h
    · intro m hm
      exact (visit_mono (ancSuccs g cg) (dfsFuel g)).2 ms st1 (hclosed1 x h m hm)
    · exact h
  have hmeq_final : MarksEq (visitList (ancSuccs g cg) (dfsFuel g) ms st1) :=
    (visit_marksEq (ancSuccs g cg) (dfsFuel g)).2 ms st1 hmeq
  refine ⟨((visit_outInv (ancSuccs g cg) (dfsFuel g)).2 ms st1 hinv).1, ?_⟩
  intro x hx gid hgid
  have hgidF : gid ∈ ancSuccs g cg x := by
    unfold ancSuccs
    rw [hgid]
    exact List.mem_append.2 (Or.inl (List.mem_append.2 (Or.inr (by simp))))
  exact (hmeq_final gid).1 (hfin_closed x hx gid hgidF)

/-- C5 counterexample: node 0 is owned by group 1 and has no in-edges. The
claim requires the owning group of the start node to be reachable as an
output element of `collectAncestorsDfs(0, includeGroupMembers = true)`,
but the start node's own-group collection is commented out in the source
(qanGraph.cpp:1722-1726): the output is empty, so group 1 is not in it. -/
theorem collectAncestorsDfs_misses_start_group :
    collectAncestorsDfs
        ⟨[0, 1], fun _ => [], fun _ => [], fun j => j == 1,
          fun j => if j == 1 then [0] else [], fun j => if j == 0 then some 1 else none⟩
        0 true = [] ∧
    TGraph.groupOf
        ⟨[0, 1], fun _ => [], fun _ => [], fun j => j == 1,
          fun j => if j == 1 then [0] else [], fun j => if j == 0 then some 1 else none⟩
        0 = some 1 := by
  exact ⟨rfl, rfl⟩

/-- C5 (amended): `collectAncestorsDfs(node, includeGroupMembers)` follows
in-edges, and every node the recursion walks has its owning group
additionally treated as a traversal target (and, when
`includeGroupMembers` is set and the node is a group, its member nodes);
consequently the owning group of every output node is itself an output
element, and each node appears at most once. The start node itself is not
collected, and its own owning group is not directly traversed (that
collection is commented out in the source), so it is reachable as an
output element only through some walked node. -/
theorem collectAncestorsDfs_spec (g : TGraph) (n : Nat) (cg : Bool)
    (hwf : wellFormed g) (hn : n ∈ g.nodeIds) :
    (collectAncestorsDfs g n cg).Nodup ∧
    (∀ x ∈ collectAncestorsDfs g n cg, ∀ gid, g.groupOf x = some gid →
       gid ∈ collectAncestorsDfs g n cg) := by
  have hcl := ancSuccs_closed g cg hwf
  have hcard := univ_card_lt_dfsFuel g
  have hin_univ : ∀ m ∈ g.inNodes n, m ∈ g.univ := fun m hm =>
    List.mem_toFinset.2 ((hwf n hn).2.1 m hm)
  have hmem_univ : ∀ m ∈ g.members n, m ∈ g.univ := fun m hm =>
    List.mem_toFinset.2 ((hwf n hn).2.2.1 m hm)
  have h0inv : OutInv ((∅ : Finset Nat), ([] : List Nat)) :=
    ⟨List.nodup_nil, fun x hx => absurd hx (List.not_mem_nil x)⟩
  have h0meq : MarksEq ((∅ : Finset Nat), ([] : List Nat)) := by intro x; simp
  unfold collectAncestorsDfs collectAncestorsDfsWithFuel
  by_cases hbr : (cg && g.isGroup n) = true
  · rw [if_pos hbr]
    refine ancestors_core g cg hwf (g.inNodes n) hin_univ _ ?_ ?_ ?_ ?_
    · exact (visit_closed _ _ hcl (dfsFuel g)).2 _ _ hmem_univ (Finset.empty_subset _)
    · exact (visit_outInv _ (dfsFuel g)).2 _ _ h0inv
    · exact (visit_marksEq _ (dfsFuel g)).2 _ _ h0meq
    · intro x hx m hm
      rcases visitList_pushClosed (ancSuccs g cg) g.univ hcl (dfsFuel g) (g.members n)
          (∅, []) hmem_univ (Finset.empty_subset _) (by simpa using hcard) x hx with h | h
      · exact absurd h (List.not_mem_nil x)
      · exact h m hm
  · rw [if_neg hbr]
    refine ancestors_core g cg hwf (g.inNodes n) hin_univ (∅, []) (Finset.empty_subset _)
      h0inv h0meq ?_
    intro x hx
    exact absurd hx (List.not_mem_nil x)

/-- C5 witness: node 0 has in-node 1 and node 1 is owned by group 2: the
walked node 1's owning group 2 is an output element and the output has no
duplicate. -/
theorem collectAncestorsDfs_spec_witness :
    (2 ∈ collectAncestorsDfs
        ⟨[0, 1, 2], fun _ => [], fun j => if j == 0 then [1] else [],
          fun j => j == 2, fun _ => [], fun j => if j == 1 then some 2 else none⟩
        0 false) ∧
    (collectAncestorsDfs
        ⟨[0, 1, 2], fun _ => [], fun j => if j == 0 then [1] else [],
          fun j => j == 2, fun _ => [], fun j => if j == 1 then some 2 else none⟩
        0 false).Nodup := by
  have h := collectAncestorsDfs_spec
    ⟨[0, 1, 2], fun _ => [], fun j => if j == 0 then [1] else [],
      fun j => j == 2, fun _ => [], fun j => if j == 1 then some 2 else none⟩
    0 false (by unfold wellFormed; decide) (by decide)
  exact ⟨h.2 1 (by decide) 2 (by decide), h.1⟩

/-- C6: for every well-formed graph — cycles in the out-node relation
included — `collectDescendantsDFS` terminates (every fuel at least
`dfsFuel` computes the same output, the termination argument for the
fuel-free C++ recursion, whose visited-set is keyed by node identity) and
its output contains each visited node at most once, in first-visit order
(the output is appended to exactly at first visit); on the two-node cycle
0 → 1 → 0 a collection starting at 0 returns each of the two nodes exactly
once. -/
theorem collectDfs_spec :
    (∀ (g : TGraph) (n : Nat) (cg : Bool), wellFormed g → n ∈ g.nodeIds →
       (collectDfs g n cg).Nodup ∧
       (∀ fuel, dfsFuel g ≤ fuel →
          collectDfsWithFuel g fuel n cg = collectDfs g n cg)) ∧
    collectDfs ⟨[0, 1], fun j => if j == 0 then [1] else [0],
        fun j => if j == 0 then [1] else [0], fun _ => false, fun _ => [],
        fun _ => none⟩ 0 false = [1, 0] := by
  constructor
  · intro g n cg hwf hn
    have hcl := descSuccs_closed g cg hwf
    have hcard := univ_card_lt_dfsFuel g
    have hout_univ : ∀ m ∈ g.outNodes n, m ∈ g.univ := fun m hm =>
      List.mem_toFinset.2 ((hwf n hn).1 m hm)
    have hmem_univ : ∀ m ∈ g.members n, m ∈ g.univ := fun m hm =>
      List.mem_toFinset.2 ((hwf n hn).2.2.1 m hm)
    have h0inv : OutInv ((∅ : Finset Nat), ([] : List Nat)) :=
      ⟨List.nodup_nil, fun x hx => absurd hx (List.not_mem_nil x)⟩
    constructor
    · unfold collectDfs collectDfsWithFuel
      refine ((visit_outInv _ (dfsFuel g)).2 _ _ ?_).1
      split
      · exact (visit_outInv _ (dfsFuel g)).2 _ _ h0inv
      · exact h0inv
    · intro fuel hfuel
      unfold collectDfs collectDfsWithFuel
      have hst1 : (if cg && g.isGroup n then
            visitList (descSuccs g cg) fuel (g.members n) ((∅ : Finset Nat), ([] : List Nat))
          else (∅, [])) =
          (if cg && g.isGroup n then
            visitList (descSuccs g cg) (dfsFuel g) (g.members n) (∅, [])
          else (∅, [])) := by
        split
        · exact visitList_fuel_eq _ _ hcl fuel (dfsFuel g) _ _ hmem_univ
            (Finset.empty_subset _) (by simp; omega) (by simpa using hcard)
        · rfl
      rw [hst1]
      have hsub : (if cg && g.isGroup n then
            visitList (descSuccs g cg) (dfsFuel g) (g.members n)
              ((∅ : Finset Nat), ([] : List Nat))
          else (∅, [])).1 ⊆ g.univ := by
        split
        · exact (visit_closed _ _ hcl (dfsFuel g)).2 _ _ hmem_univ (Finset.empty_subset _)
        · exact Finset.empty_subset _
      rw [visitList_fuel_eq _ _ hcl fuel (dfsFuel g) (g.outNodes n) _ hout_univ hsub
        (by omega) (by omega)]
  · rfl

/-- C6 witness: the 0 → 1 → 0 cycle is well formed and its collection from
node 0 has no duplicate. -/
theorem collectDfs_spec_witness :
    (collectDfs ⟨[0, 1], fun j => if j == 0 then [1] else [0],
        fun j => if j == 0 then [1] else [0], fun _ => false, fun _ => [],
        fun _ => none⟩ 0 false).Nodup := by
  exact (collectDfs_spec.1 ⟨[0, 1], fun j => if j == 0 then [1] else [0],
    fun j => if j == 0 then [1] else [0], fun _ => false, fun _ => [],
    fun _ => none⟩ 0 false (by unfold wellFormed; decide) (by decide)).1

end Qan
